import Mathlib

/-!
Verification of the document pipeline of a minimal static-site generator
(`app.py`).  The pipeline is: load documents, load tabular data, annotate
last-modified metadata, render (markdown / jinja2 dispatch by file-name
suffix), resolve pretty-URL output paths, persist to a build directory.

Strings are modelled as `List Char` so that every operation is a plain
structural recursion that the kernel can evaluate.  External collaborators
(the jinja2 template engine, the markdown converter, the csv row parser and
the git history lookup) are black-box function parameters, as the spec
prescribes.
-/

/-- Character-list strings: the model of Python `str` used throughout. -/
abbrev Str := List Char

/-- Conversion from Lean string literals to the `Str` model. -/
def cs (s : String) : Str := s.data

/-- Python `s.endswith(sfx)`. -/
def endsWith (sfx s : Str) : Bool := decide (sfx <:+ s)

/-- Python `s.startswith(c)` for a single character. -/
def startsWithCh (ch : Char) : Str → Bool
  | [] => false
  | c :: _ => c = ch

/-- Python `s.split(sep)` for a one-character separator `sep`. -/
def splitChar (sep : Char) : Str → List Str
  | [] => [[]]
  | c :: rest =>
    if c = sep then [] :: splitChar sep rest
    else
      match splitChar sep rest with
      | [] => [[c]]
      | p :: ps => (c :: p) :: ps

/-- Python `sep.join(pieces)` for a one-character separator. -/
def joinChar (sep : Char) : List Str → Str
  | [] => []
  | [p] => p
  | p :: ps => p ++ sep :: joinChar sep ps

/-- Whether `pat` occurs as a contiguous sublist of `s` (Python `pat in s`). -/
def containsSub (pat : Str) : Str → Bool
  | [] => pat.isEmpty
  | c :: rest => pat.isPrefixOf (c :: rest) || containsSub pat rest

/-- POSIX `os.path.join(a, b)`. -/
def pathJoin (a b : Str) : Str :=
  if b.head? = some '/' then b
  else if a = [] then b
  else if a.getLast? = some '/' then a ++ b
  else a ++ '/' :: b

/-- Python `s.replace('.md', '.html')`: every non-overlapping occurrence of
`.md`, scanned left to right, is replaced by `.html` (from `render`). -/
def replaceMd : Str → Str
  | '.' :: 'm' :: 'd' :: rest => '.' :: 'h' :: 't' :: 'm' :: 'l' :: replaceMd rest
  | c :: rest => c :: replaceMd rest
  | [] => []

/-- Python `s.replace('.jinja2', '.html')` (from `render`). -/
def replaceJinja2 : Str → Str
  | '.' :: 'j' :: 'i' :: 'n' :: 'j' :: 'a' :: '2' :: rest =>
      '.' :: 'h' :: 't' :: 'm' :: 'l' :: replaceJinja2 rest
  | c :: rest => c :: replaceJinja2 rest
  | [] => []

/-- Python `s.replace('./content', './build')` (from `prepare`). -/
def replaceContentBuild : Str → Str
  | '.' :: '/' :: 'c' :: 'o' :: 'n' :: 't' :: 'e' :: 'n' :: 't' :: rest =>
      '.' :: '/' :: 'b' :: 'u' :: 'i' :: 'l' :: 'd' :: replaceContentBuild rest
  | c :: rest => c :: replaceContentBuild rest
  | [] => []

/-! ## Data model -/

/-- A parsed absolute timestamp with UTC offset, the model of the
`datetime.datetime` value produced by `strptime` in `set_last_modified`. -/
structure DateTime where
  year : Nat
  month : Nat
  day : Nat
  hour : Nat
  minute : Nat
  second : Nat
  tzMinutes : Int
deriving DecidableEq, Repr

/-- A front-matter metadata value: a scalar string or an injected timestamp. -/
inductive MetaValue where
  | str : Str → MetaValue
  | date : DateTime → MetaValue
deriving DecidableEq, Repr

/-- The `frontmatter.Post` carried by each document: metadata mapping plus
body content. -/
structure Post where
  metadata : List (Str × MetaValue)
  content : Str
deriving DecidableEq, Repr

/-- `Document` from `app.py`: directory, file name and front-matter post. -/
structure Document where
  dir_name : Str
  file_name : Str
  info : Post
deriving DecidableEq, Repr

/-- One csv row-record: field name to string value. -/
abbrev Row := List (Str × Str)

/-- `Context` from `app.py`: dataset mapping plus the full document list. -/
structure Context where
  data : List (Str × List Row)
  docs : List Document

/-- The black-box template/markdown collaborators used by `render`:
`markdown.markdown`, `templates['page'].render` and
`template_env.from_string(...).render`. -/
structure RenderEnv where
  md2html : Str → Str
  page : Context → Document → Str
  fromString : Str → Context → Document → Str

/-- Python dict assignment `m[k] = v`: overwrite in place if the key exists,
otherwise append (insertion order preserved). -/
def setKey {α : Type} : List (Str × α) → Str → α → List (Str × α)
  | [], k, v => [(k, v)]
  | (k', v') :: rest, k, v =>
    if k' = k then (k, v) :: rest else (k', v') :: setKey rest k v

/-! ## DataLoader (`load_data`) -/

/-- The loop of `load_data` over the (name, raw content) entries of the data
directory, accumulating the dict `data`.  `csvParse` is the black-box
`csv.DictReader` collaborator.  `none` models the fatal `ValueError` raised
by `data_name, ext = file_name.split('.')` when the split does not yield
exactly two parts. -/
def load_data_go (csvParse : Str → List Row) (acc : List (Str × List Row)) :
    List (Str × Str) → Option (List (Str × List Row))
  | [] => some acc
  | (nm, c) :: rest =>
    if startsWithCh '_' nm then load_data_go csvParse acc rest
    else
      match splitChar '.' nm with
      | [dataName, ext] =>
        if ext = cs "csv" then load_data_go csvParse (setKey acc dataName (csvParse c)) rest
        else load_data_go csvParse acc rest
      | _ => none

/-- `load_data` from `app.py`, over the listing of the data directory. -/
def load_data (csvParse : Str → List Row) (files : List (Str × Str)) :
    Option (List (Str × List Row)) :=
  load_data_go csvParse [] files

/-! ## ModifiedTimeAnnotator (`set_last_modified`) -/

/-- Digit-list accumulator for decimal parsing. -/
def parseNatGo : Nat → Str → Option Nat
  | acc, [] => some acc
  | acc, c :: rest =>
    if c.isDigit then parseNatGo (acc * 10 + (c.toNat - '0'.toNat)) rest else none

/-- Parse a nonempty all-digit string as a decimal number. -/
def parseNat? : Str → Option Nat
  | [] => none
  | s => parseNatGo 0 s

/-- The weekday abbreviations accepted by `strptime` directive `%a`. -/
def weekdayNames : List Str :=
  [cs "Mon", cs "Tue", cs "Wed", cs "Thu", cs "Fri", cs "Sat", cs "Sun"]

/-- The month abbreviations accepted by `strptime` directive `%b`. -/
def monthAbbrevs : List Str :=
  [cs "Jan", cs "Feb", cs "Mar", cs "Apr", cs "May", cs "Jun",
   cs "Jul", cs "Aug", cs "Sep", cs "Oct", cs "Nov", cs "Dec"]

/-- Index (from 1) of a string in a list of names. -/
def nameIndex (names : List Str) (s : Str) : Option Nat :=
  match names with
  | [] => none
  | n :: rest =>
    if n = s then some 1 else (nameIndex rest s).map (· + 1)

/-- Parse a `%z` UTC offset such as `-0500` into minutes. -/
def parseTz : Str → Option Int
  | [sgn, h1, h2, m1, m2] => do
    let hh ← parseNat? [h1, h2]
    let mm ← parseNat? [m1, m2]
    if sgn = '+' then some (Int.ofNat (hh * 60 + mm))
    else if sgn = '-' then some (-(Int.ofNat (hh * 60 + mm)))
    else none
  | _ => none

/-- Parse an `HH:MM:SS` component. -/
def parseTime : Str → Option (Nat × Nat × Nat)
  | t =>
    match splitChar ':' t with
    | [hs, ms, ss] => do
      let hh ← parseNat? hs
      let mm ← parseNat? ms
      let sec ← parseNat? ss
      if hh ≤ 23 ∧ mm ≤ 59 ∧ sec ≤ 61 then some (hh, mm, sec) else none
    | _ => none

/-- `datetime.datetime.strptime(text, "%a %b %d %H:%M:%S %Y %z")`, the fixed
git timestamp format of `set_last_modified` (e.g.
`Tue Mar 17 22:30:27 2020 -0500`).  `none` models the fatal `ValueError` on
malformed text. -/
def strptimeGit (s : Str) : Option DateTime :=
  match splitChar ' ' s with
  | [wd, mon, dayS, time, yearS, tzS] => do
    if weekdayNames.contains wd then
      let m ← nameIndex monthAbbrevs mon
      let d ← parseNat? dayS
      if 1 ≤ d ∧ d ≤ 31 then
        let t ← parseTime time
        let y ← parseNat? yearS
        let tz ← parseTz tzS
        some ⟨y, m, d, t.1, t.2.1, t.2.2, tz⟩
      else none
    else none
  | _ => none

/-- Decimal digits of `n`, most significant first (fuel-indexed helper). -/
def natDigitsAux : Nat → Nat → Str
  | 0, _ => []
  | fuel + 1, n =>
    if n = 0 then [] else natDigitsAux fuel (n / 10) ++ [Char.ofNat ('0'.toNat + n % 10)]

/-- Decimal rendering of a natural number. -/
def natToStr (n : Nat) : Str :=
  if n = 0 then ['0'] else natDigitsAux (n + 1) n

/-- Zero-padded two-digit decimal rendering (strftime `%d`, `%I`, `%M`). -/
def pad2 (n : Nat) : Str :=
  if n < 10 then '0' :: natToStr n else natToStr n

/-- Twelve-hour clock value of an hour (strftime `%I`). -/
def hour12 (h : Nat) : Nat :=
  if h % 12 = 0 then 12 else h % 12

/-- Full month name (strftime `%B`). -/
def monthFullName : Nat → Str
  | 1 => cs "January"
  | 2 => cs "February"
  | 3 => cs "March"
  | 4 => cs "April"
  | 5 => cs "May"
  | 6 => cs "June"
  | 7 => cs "July"
  | 8 => cs "August"
  | 9 => cs "September"
  | 10 => cs "October"
  | 11 => cs "November"
  | 12 => cs "December"
  | _ => []

/-- `dt.strftime('%B %d, %Y at %I:%M %p')` from `set_last_modified`. -/
def strftimePretty (dt : DateTime) : Str :=
  monthFullName dt.month ++ ' ' :: pad2 dt.day ++ cs ", " ++ natToStr dt.year
    ++ cs " at " ++ pad2 (hour12 dt.hour) ++ ':' :: pad2 dt.minute
    ++ ' ' :: (if dt.hour < 12 then cs "AM" else cs "PM")

/-- The body of the `set_last_modified` loop for one document.  `lookup` is
the black-box git history collaborator (`git log -1 --format="%ad" -- path`,
decoded, stripped and unquoted): `none` models empty output for an untracked
file.  A present but unparseable timestamp is the fatal `ValueError`. -/
def annotateDoc (lookup : Str → Option Str) (doc : Document) : Option Document :=
  match lookup (pathJoin doc.dir_name doc.file_name) with
  | none => some doc
  | some txt =>
    match strptimeGit txt with
    | none => none
    | some dt =>
      let meta1 := setKey doc.info.metadata (cs "last_modified_date") (.date dt)
      let meta2 := setKey meta1 (cs "last_modified") (.str (strftimePretty dt))
      some { doc with info := { doc.info with metadata := meta2 } }

/-- `set_last_modified` from `app.py`: annotate every document in order;
a parse failure aborts the build. -/
def set_last_modified (lookup : Str → Option Str) :
    List Document → Option (List Document)
  | [] => some []
  | doc :: rest =>
    match annotateDoc lookup doc, set_last_modified lookup rest with
    | some d', some rest' => some (d' :: rest')
    | _, _ => none

/-! ## Renderer (`render`)

The source iterates over `context.docs` mutating each `Document` in place;
`context` holds the same (mutable) list, so every template call observes the
current mutation state.  The model is a list of documents updated by
`List.set`, one index per loop iteration. -/

/-- The `.md` branch of the `render` loop body: convert the body with the
markdown collaborator, rename `.md` to `.html`, then render the fixed
`page` layout with the shared context and the (already mutated) document. -/
def mdBranch (E : RenderEnv) (data : List (Str × List Row))
    (docs : List Document) (i : Nat) (doc : Document) : List Document :=
  if endsWith (cs ".md") doc.file_name then
    let d1 : Document :=
      { doc with file_name := replaceMd doc.file_name,
                 info := { doc.info with content := E.md2html doc.info.content } }
    let ctxDocs := docs.set i d1
    docs.set i { d1 with info := { d1.info with content := E.page ⟨data, ctxDocs⟩ d1 } }
  else docs

/-- The `.jinja2` branch of the `render` loop body: compile the document's
own raw body as a template, rename `.jinja2` to `.html`, then render it with
the shared context and the (renamed) document. -/
def jinjaBranch (E : RenderEnv) (data : List (Str × List Row))
    (docs : List Document) (i : Nat) (doc : Document) : List Document :=
  if endsWith (cs ".jinja2") doc.file_name then
    let tmplSrc := doc.info.content
    let d2 : Document := { doc with file_name := replaceJinja2 doc.file_name }
    let ctxDocs := docs.set i d2
    docs.set i { d2 with info := { d2.info with content := E.fromString tmplSrc ⟨data, ctxDocs⟩ d2 } }
  else docs

/-- One iteration of the `render` loop: the two suffix branches are checked
independently, the second on the possibly already-renamed file name. -/
def renderStepAt (E : RenderEnv) (data : List (Str × List Row))
    (docs : List Document) (i : Nat) : List Document :=
  match docs[i]? with
  | none => docs
  | some doc =>
    let docs1 := mdBranch E data docs i doc
    match docs1[i]? with
    | none => docs1
    | some d => jinjaBranch E data docs1 i d

/-- The document-list state after the first `n` iterations of the `render`
loop; `renderUpTo E data docs i` is `context.docs` at the moment the render
call for document `i` begins. -/
def renderUpTo (E : RenderEnv) (data : List (Str × List Row))
    (docs : List Document) : Nat → List Document
  | 0 => docs
  | n + 1 => renderStepAt E data (renderUpTo E data docs n) n

/-- `render` from `app.py`: run the loop over the whole document list. -/
def render (E : RenderEnv) (ctx : Context) : Context :=
  { ctx with docs := renderUpTo E ctx.data ctx.docs ctx.docs.length }

/-- The file-name transformation applied by one `render` iteration (the
content transformations involve the black-box collaborators; the name
rewrite is context-independent). -/
def renderName (name : Str) : Str :=
  let n1 := if endsWith (cs ".md") name then replaceMd name else name
  if endsWith (cs ".jinja2") n1 then replaceJinja2 n1 else n1

/-- The specification's alternative reading of the `render` loop body: a
true mutually exclusive switch in which at most one suffix branch runs,
dispatching on the original file name. -/
def renderStepAtSwitch (E : RenderEnv) (data : List (Str × List Row))
    (docs : List Document) (i : Nat) : List Document :=
  match docs[i]? with
  | none => docs
  | some doc =>
    if endsWith (cs ".md") doc.file_name then mdBranch E data docs i doc
    else jinjaBranch E data docs i doc

/-! ## PathResolver (`prepare`) -/

/-- The first statement of the `prepare` loop body:
`doc.dir_name = doc.dir_name.replace('./content', './build')`. -/
def prepareDirStep (doc : Document) : Document :=
  { doc with dir_name := replaceContentBuild doc.dir_name }

/-- The full `prepare` loop body: rewrite the directory, then apply the
pretty-URL transform to `.html` files not already named `index.html`. -/
def prepareDoc (doc : Document) : Document :=
  let doc1 := prepareDirStep doc
  if endsWith (cs ".html") doc1.file_name = true ∧ doc1.file_name ≠ cs "index.html" then
    let final_dir_name := joinChar '.' (splitChar '.' doc1.file_name).dropLast
    { doc1 with dir_name := pathJoin doc1.dir_name final_dir_name,
                file_name := cs "index.html" }
  else doc1

/-- `prepare` from `app.py`. -/
def prepare (docs : List Document) : List Document := docs.map prepareDoc

/-! ## Persister (`persist`)

The file system is modelled as an association list from full path to file
content; `persist` transforms a pre-existing world. -/

/-- File-system model: full path to byte content. -/
abbrev FS := List (Str × Str)

/-- Reading the file stored at path `p` (first matching entry). -/
def fsLookup : FS → Str → Option Str
  | [], _ => none
  | (k, v) :: rest, p => if k = p then some v else fsLookup rest p

/-- Write a sequence of (path, content) pairs in order, each with
truncate-overwrite semantics (`open(path, 'w+')`). -/
def writeAll (fs : FS) : List (Str × Str) → FS
  | [] => fs
  | (k, v) :: rest => writeAll (setKey fs k v) rest

/-- The content of the last write to path `p` among `es`, if any. -/
def lastMatch (es : List (Str × Str)) (p : Str) : Option Str :=
  match es with
  | [] => none
  | (k, v) :: rest =>
    match lastMatch rest p with
    | some w => some w
    | none => if k = p then some v else none

/-- `shutil.rmtree('./build')` guarded by `os.path.exists`: every file under
the build directory disappears; `os.mkdir` recreates it empty. -/
def rmtreeBuild (fs : FS) : FS :=
  fs.filter (fun e => !(cs "./build/").isPrefixOf e.1)

/-- Target path of a static asset copied by
`shutil.copytree(STATIC_DIR, os.path.join(BUILD_DIR, STATIC_DIR))`. -/
def staticTarget (rel : Str) : Str :=
  pathJoin (pathJoin (cs "./build") (cs "./static")) rel

/-- A document's final output path `os.path.join(doc.dir_name, doc.file_name)`. -/
def docPath (d : Document) : Str := pathJoin d.dir_name d.file_name

/-- `persist` from `app.py`: remove any existing build tree, copy the static
tree, then write every document (directory creation is a no-op in the map
model). -/
def persist (fs0 : FS) (static : List (Str × Str)) (docs : List Document) : FS :=
  let fs1 := rmtreeBuild fs0
  let fs2 := writeAll fs1 (static.map (fun e => (staticTarget e.1, e.2)))
  writeAll fs2 (docs.map (fun d => (docPath d, d.info.content)))

/-! ## Pipeline (`build`) -/

/-- `build` from `app.py`: documents are discovered (front-matter parsing is
the black-box `frontmatter.load`, so the walk's result `docs0` is an input),
data is loaded, history annotations applied, then render, prepare, persist.
`none` models a fatal abort. -/
def build (E : RenderEnv) (lookup : Str → Option Str) (csvParse : Str → List Row)
    (docs0 : List Document) (dataFiles : List (Str × Str))
    (static : List (Str × Str)) (fs0 : FS) : Option FS :=
  match load_data csvParse dataFiles with
  | none => none
  | some data =>
    match set_last_modified lookup docs0 with
    | none => none
    | some docs1 =>
      let ctx2 := render E ⟨data, docs1⟩
      let docs3 := prepare ctx2.docs
      some (persist fs0 static docs3)

/-- A concrete render environment used by witnesses and counterexamples. -/
def Ezero : RenderEnv :=
  { md2html := fun _ => cs "X",
    page := fun _ d => d.info.content,
    fromString := fun s _ _ => s }

/-- A concrete markdown document. -/
def docA : Document := ⟨cs "./content", cs "a.md", ⟨[], cs "b"⟩⟩

/-- A concrete history lookup that always finds the same timestamp. -/
def lookupTue : Str → Option Str := fun _ => some (cs "Tue Mar 17 22:30:27 2020 -0500")

/-- `docA` as annotated by `set_last_modified` under `lookupTue`. -/
def docAnn : Document :=
  ⟨cs "./content", cs "a.md",
    ⟨setKey (setKey [] (cs "last_modified_date") (MetaValue.date ⟨2020, 3, 17, 22, 30, 27, -300⟩))
      (cs "last_modified") (MetaValue.str (cs "March 17, 2020 at 10:30 PM")), cs "b"⟩⟩

/-- The document list of a one-document site after render and prepare. -/
def docsStage3 : List Document := prepare (render Ezero ⟨[], [docA]⟩).docs

/-- Two concrete documents that resolve to the same output path as the
copied static asset `x`. -/
def docClash1 : Document := ⟨cs "./build/./static", cs "x", ⟨[], cs "first"⟩⟩

/-- Second document clashing on the same output path. -/
def docClash2 : Document := ⟨cs "./build/./static", cs "x", ⟨[], cs "second"⟩⟩

/-! ## Helper lemmas: suffixes and the replace functions -/

theorem endsWith_iff {sfx s : Str} : endsWith sfx s = true ↔ sfx <:+ s := by
  simp [endsWith]

theorem endsWith_append (l sfx : Str) : endsWith sfx (l ++ sfx) = true :=
  endsWith_iff.mpr (List.suffix_append l sfx)

/-- A string ending in `.html` does not end in `.jinja2`. -/
theorem not_endsWith_jinja_of_html (Y : Str) :
    endsWith (cs ".jinja2") (Y ++ cs ".html") = false := by
  rw [Bool.eq_false_iff]
  intro h
  have hj : cs ".jinja2" <:+ Y ++ cs ".html" := endsWith_iff.mp h
  have hh : cs ".html" <:+ Y ++ cs ".html" := List.suffix_append Y (cs ".html")
  rcases List.suffix_or_suffix_of_suffix hj hh with hcase | hcase
  · have := hcase.length_le
    simp [cs] at this
  · have : ¬ (cs ".html" <:+ cs ".jinja2") := by decide
    exact this hcase

/-- Unfolding `replaceMd` when the pattern does not match at the front. -/
theorem replaceMd_cons (c : Char) (rest : Str)
    (h : (cs ".md").isPrefixOf (c :: rest) = false) :
    replaceMd (c :: rest) = c :: replaceMd rest := by
  rw [replaceMd.eq_def]
  split
  · rename_i rest' heq
    rw [show ((c :: rest : Str)) = '.' :: 'm' :: 'd' :: rest' from heq] at h
    simp [cs, List.isPrefixOf] at h
  · rename_i c' rest' heq
    cases heq
    rfl
  · rename_i heq
    cases heq

theorem containsSub_cons_false {pat : Str} {c : Char} {rest : Str}
    (h : containsSub pat (c :: rest) = false) :
    pat.isPrefixOf (c :: rest) = false ∧ containsSub pat rest = false := by
  simpa [containsSub] using h

/-- `s.replace('.md', '.html')` is the identity when `.md` does not occur. -/
theorem replaceMd_id {s : Str} (h : containsSub (cs ".md") s = false) :
    replaceMd s = s := by
  induction s with
  | nil => rfl
  | cons c rest ih =>
    obtain ⟨h1, h2⟩ := containsSub_cons_false h
    rw [replaceMd_cons c rest h1, ih h2]

set_option maxHeartbeats 1000000 in
/-- Unfolding `replaceContentBuild` when the pattern does not match at the
front. -/
theorem replaceContentBuild_cons (c : Char) (rest : Str)
    (h : (cs "./content").isPrefixOf (c :: rest) = false) :
    replaceContentBuild (c :: rest) = c :: replaceContentBuild rest := by
  rw [replaceContentBuild.eq_def]
  split
  · rename_i rest' heq
    rw [show ((c :: rest : Str)) = '.' :: '/' :: 'c' :: 'o' :: 'n' :: 't' :: 'e' :: 'n' :: 't' :: rest' from heq] at h
    simp [cs, List.isPrefixOf] at h
  · rename_i c' rest' heq
    cases heq
    rfl
  · rename_i heq
    cases heq

/-- `s.replace('./content', './build')` is the identity when `./content`
does not occur. -/
theorem replaceContentBuild_id {s : Str} (h : containsSub (cs "./content") s = false) :
    replaceContentBuild s = s := by
  induction s with
  | nil => rfl
  | cons c rest ih =>
    obtain ⟨h1, h2⟩ := containsSub_cons_false h
    rw [replaceContentBuild_cons c rest h1, ih h2]

/-- When `.md` does not occur inside `X`, replacing `.md` in `X ++ ".md"`
rewrites exactly the suffix. -/
theorem replaceMd_append_md {X : Str} (h : containsSub (cs ".md") X = false) :
    replaceMd (X ++ cs ".md") = X ++ cs ".html" := by
  induction X with
  | nil => rfl
  | cons c X' ih =>
    obtain ⟨h1, h2⟩ := containsSub_cons_false h
    have hpfx : (cs ".md").isPrefixOf (c :: (X' ++ cs ".md")) = false := by
      rcases X' with _ | ⟨x, _ | ⟨y, X''⟩⟩
      · have hm : ('m' == '.') = false := rfl
        simp [cs, List.isPrefixOf, hm]
      · have hd : ('d' == '.') = false := rfl
        simp [cs, List.isPrefixOf, hd]
      · rw [Bool.eq_false_iff]
        intro hpre
        obtain ⟨hc, hx, hy⟩ : '.' = c ∧ 'm' = x ∧ 'd' = y := by
          simpa [cs, List.isPrefixOf] using hpre
        subst hc
        subst hx
        subst hy
        simp [cs, List.isPrefixOf] at h1
    rw [List.cons_append, replaceMd_cons c (X' ++ cs ".md") hpfx, ih h2, List.cons_append]

/-- `replaceMd` of a string ending in `.md` ends in `.html`. -/
theorem replaceMd_endsWith_html {s : Str} (h : endsWith (cs ".md") s = true) :
    ∃ Y, replaceMd s = Y ++ cs ".html" := by
  have hsuf : cs ".md" <:+ s := endsWith_iff.mp h
  clear h
  induction s using replaceMd.induct with
  | case1 rest ih =>
    match rest, hsuf with
    | [], _ => exact ⟨[], rfl⟩
    | r :: rest', hsuf =>
      have h1 : cs ".md" <:+ 'm' :: 'd' :: r :: rest' := by
        rcases List.suffix_cons_iff.mp hsuf with heq | h1
        · cases heq
        · exact h1
      have h2 : cs ".md" <:+ 'd' :: r :: rest' := by
        rcases List.suffix_cons_iff.mp h1 with heq | h2
        · cases heq
        · exact h2
      have h3 : cs ".md" <:+ r :: rest' := by
        rcases List.suffix_cons_iff.mp h2 with heq | h3
        · cases heq
        · exact h3
      obtain ⟨Y, hY⟩ := ih h3
      exact ⟨'.' :: 'h' :: 't' :: 'm' :: 'l' :: Y, by rw [replaceMd, hY]; rfl⟩
  | case2 c rest hex ih =>
    have hpfx : (cs ".md").isPrefixOf (c :: rest) = false := by
      rw [Bool.eq_false_iff]
      intro htrue
      obtain ⟨t, ht⟩ := List.isPrefixOf_iff_prefix.mp htrue
      have ht' : '.' :: 'm' :: 'd' :: t = c :: rest := ht
      injection ht' with hc hrest
      exact hex t hc.symm hrest.symm
    rcases List.suffix_cons_iff.mp hsuf with heq | hsuf'
    · exfalso
      have heq' : '.' :: 'm' :: 'd' :: ([] : Str) = c :: rest := heq
      injection heq' with hc hrest
      exact hex [] hc.symm hrest.symm
    · obtain ⟨Y, hY⟩ := ih hsuf'
      rw [replaceMd_cons c rest hpfx, hY]
      exact ⟨c :: Y, rfl⟩
  | case3 =>
    have := hsuf.length_le
    simp [cs] at this

/-! ## Helper lemmas: split and join -/

theorem splitChar_ne_nil (sep : Char) (s : Str) : splitChar sep s ≠ [] := by
  induction s with
  | nil => simp [splitChar]
  | cons c rest ih =>
    by_cases hc : c = sep
    · simp [splitChar, hc]
    · simp only [splitChar, if_neg hc]
      match hsp : splitChar sep rest with
      | [] => simp
      | p :: ps => simp

theorem splitChar_cons_ex (sep : Char) (s : Str) :
    ∃ p ps, splitChar sep s = p :: ps := by
  match hx : splitChar sep s with
  | [] => exact absurd hx (splitChar_ne_nil sep s)
  | p :: ps => exact ⟨p, ps, rfl⟩

/-- Splitting distributes over a separator occurrence. -/
theorem splitChar_append (sep : Char) (A B : Str) :
    splitChar sep (A ++ sep :: B) = splitChar sep A ++ splitChar sep B := by
  induction A with
  | nil => simp [splitChar]
  | cons c A' ih =>
    rw [List.cons_append]
    by_cases hc : c = sep
    · rw [splitChar, if_pos hc, ih]
      conv_rhs => rw [splitChar, if_pos hc]
      rw [List.cons_append]
    · obtain ⟨p, ps, hsp⟩ := splitChar_cons_ex sep A'
      rw [splitChar, if_neg hc, ih, hsp]
      conv_rhs => rw [splitChar, if_neg hc, hsp]
      simp [List.cons_append]

/-- Joining undoes splitting. -/
theorem joinChar_splitChar (sep : Char) (s : Str) :
    joinChar sep (splitChar sep s) = s := by
  induction s with
  | nil => rfl
  | cons c rest ih =>
    obtain ⟨p, ps, hsp⟩ := splitChar_cons_ex sep rest
    rw [hsp] at ih
    by_cases hc : c = sep
    · rw [splitChar, if_pos hc, hsp, joinChar, ih, hc]
      · rfl
      · intro h
        cases h
    · rw [splitChar, if_neg hc, hsp]
      match ps, ih with
      | [], ih =>
        rw [joinChar] at ih
        rw [joinChar, ih]
      | q :: ps', ih =>
        rw [joinChar] at ih
        · rw [joinChar]
          · rw [List.cons_append, ih]
          · intro h
            cases h
        · intro h
          cases h

/-! ## Helper lemmas: the render loop -/

theorem renderStepAt_getElem_ne (E : RenderEnv) (data : List (Str × List Row))
    (docs : List Document) {i j : Nat} (hij : i ≠ j) :
    (renderStepAt E data docs i)[j]? = docs[j]? := by
  simp only [renderStepAt, mdBranch, jinjaBranch]
  repeat' split
  all_goals simp [List.getElem?_set_ne hij]

/-- Document `j` is untouched during the first `i ≤ j` render iterations:
not-yet-rendered documents still hold their original state. -/
theorem renderUpTo_getElem_ge (E : RenderEnv) (data : List (Str × List Row))
    (docs : List Document) {i j : Nat} (hij : i ≤ j) :
    (renderUpTo E data docs i)[j]? = docs[j]? := by
  induction i with
  | zero => rfl
  | succ n ihn =>
    have hn : n ≤ j := Nat.le_of_succ_le hij
    have hne : n ≠ j := Nat.ne_of_lt hij
    rw [renderUpTo, renderStepAt_getElem_ne E data _ hne, ihn hn]

/-- The effect of one render iteration on its own document: the file name is
rewritten by `renderName`; directory and metadata are untouched. -/
theorem renderStepAt_at (E : RenderEnv) (data : List (Str × List Row))
    (docs : List Document) (i : Nat) (doc : Document)
    (hget : docs[i]? = some doc) :
    ∃ d', (renderStepAt E data docs i)[i]? = some d' ∧
      d'.file_name = renderName doc.file_name ∧
      d'.dir_name = doc.dir_name ∧
      d'.info.metadata = doc.info.metadata := by
  have hlen : i < docs.length := (List.getElem?_eq_some.mp hget).1
  rw [renderStepAt, hget]
  simp only [mdBranch]
  by_cases hmd : endsWith (cs ".md") doc.file_name
  · rw [if_pos hmd]
    rw [List.getElem?_set_self (by simpa using hlen)]
    simp only [jinjaBranch]
    by_cases hjj : endsWith (cs ".jinja2") (replaceMd doc.file_name)
    · rw [if_pos hjj]
      rw [List.getElem?_set_self (by simpa using hlen)]
      refine ⟨_, rfl, ?_, rfl, rfl⟩
      simp [renderName, hmd, hjj]
    · rw [if_neg hjj]
      rw [List.getElem?_set_self (by simpa using hlen)]
      refine ⟨_, rfl, ?_, rfl, rfl⟩
      simp [renderName, hmd, hjj]
  · rw [if_neg hmd]
    rw [hget]
    simp only [jinjaBranch]
    by_cases hjj : endsWith (cs ".jinja2") doc.file_name
    · rw [if_pos hjj]
      rw [List.getElem?_set_self (by simpa using hlen)]
      refine ⟨_, rfl, ?_, rfl, rfl⟩
      simp [renderName, hmd, hjj]
    · rw [if_neg hjj, hget]
      refine ⟨doc, rfl, ?_, rfl, rfl⟩
      simp [renderName, hmd, hjj]

/-- A render iteration does nothing to a document that ends in neither
`.md` nor `.jinja2`. -/
theorem renderStepAt_noop (E : RenderEnv) (data : List (Str × List Row))
    (docs : List Document) (i : Nat) (doc : Document)
    (hget : docs[i]? = some doc)
    (hmd : endsWith (cs ".md") doc.file_name = false)
    (hjj : endsWith (cs ".jinja2") doc.file_name = false) :
    renderStepAt E data docs i = docs := by
  rw [renderStepAt, hget]
  simp only [mdBranch, hmd, Bool.false_eq_true, if_false, hget, jinjaBranch, hjj]

/-- After enough iterations, document `i` carries the `renderName` rewrite
of its original file name, with directory and metadata untouched. -/
theorem renderUpTo_at (E : RenderEnv) (data : List (Str × List Row))
    (docs : List Document) {i n : Nat} {doc : Document}
    (hget : docs[i]? = some doc) (hin : i < n) :
    ∃ d', (renderUpTo E data docs n)[i]? = some d' ∧
      d'.file_name = renderName doc.file_name ∧
      d'.dir_name = doc.dir_name ∧
      d'.info.metadata = doc.info.metadata := by
  induction n with
  | zero => omega
  | succ k ihk =>
    by_cases hik : i = k
    · subst hik
      have hstate : (renderUpTo E data docs i)[i]? = some doc := by
        rw [renderUpTo_getElem_ge E data docs (le_refl i), hget]
      exact renderStepAt_at E data (renderUpTo E data docs i) i doc hstate
    · have hik' : i < k := by omega
      obtain ⟨d', h1, h2, h3, h4⟩ := ihk hik'
      refine ⟨d', ?_, h2, h3, h4⟩
      rw [renderUpTo, renderStepAt_getElem_ne E data _ (Ne.symm hik), h1]

/-- A document ending in neither `.md` nor `.jinja2` is untouched by the
whole render loop. -/
theorem renderUpTo_noop_at (E : RenderEnv) (data : List (Str × List Row))
    (docs : List Document) {i : Nat} {doc : Document}
    (hget : docs[i]? = some doc)
    (hmd : endsWith (cs ".md") doc.file_name = false)
    (hjj : endsWith (cs ".jinja2") doc.file_name = false) (n : Nat) :
    (renderUpTo E data docs n)[i]? = some doc := by
  induction n with
  | zero => exact hget
  | succ k ihk =>
    by_cases hik : k = i
    · subst hik
      rw [renderUpTo, renderStepAt_noop E data _ k doc ihk hmd hjj]
      exact ihk
    · rw [renderUpTo, renderStepAt_getElem_ne E data _ hik, ihk]

/-! ## Helper lemmas: renderName and prepare -/

/-- When `.md` does not occur inside `X`, rendering renames `X.md` to
`X.html`. -/
theorem renderName_md {X : Str} (h : containsSub (cs ".md") X = false) :
    renderName (X ++ cs ".md") = X ++ cs ".html" := by
  simp only [renderName, endsWith_append, if_true]
  rw [replaceMd_append_md h]
  simp [not_endsWith_jinja_of_html]

/-- Pretty-URL resolution for a document named `X.html` with `X ≠ index`. -/
theorem prepareDoc_pretty {doc : Document} {X : Str}
    (hname : doc.file_name = X ++ cs ".html") (hX : X ≠ cs "index") :
    prepareDoc doc = { doc with
      dir_name := pathJoin (replaceContentBuild doc.dir_name) X,
      file_name := cs "index.html" } := by
  have hhtml : endsWith (cs ".html") doc.file_name = true := by
    rw [hname]
    exact endsWith_append _ _
  have hne : doc.file_name ≠ cs "index.html" := by
    rw [hname]
    intro h
    exact hX (List.append_cancel_right (h.trans rfl))
  have hsplit : splitChar '.' doc.file_name = splitChar '.' X ++ [cs "html"] := by
    rw [hname]
    have hshape : (X ++ cs ".html") = X ++ '.' :: cs "html" := rfl
    rw [hshape, splitChar_append]
    rfl
  rw [prepareDoc]
  rw [if_pos ⟨hhtml, hne⟩]
  simp only [prepareDirStep, hsplit, List.dropLast_concat, joinChar_splitChar]

/-- Pretty-URL resolution skips a document already named `index.html`, and
any document not ending in `.html`; only the directory is rewritten. -/
theorem prepareDoc_skip {doc : Document}
    (h : endsWith (cs ".html") doc.file_name = false ∨ doc.file_name = cs "index.html") :
    prepareDoc doc = prepareDirStep doc := by
  rw [prepareDoc]
  rcases h with h | h
  · rw [if_neg]
    rintro ⟨h1, -⟩
    rw [prepareDirStep] at h1
    simp only at h1
    rw [h] at h1
    cases h1
  · rw [if_neg]
    rintro ⟨-, h2⟩
    exact h2 h

/-! ## Helper lemmas: the annotation stage -/

/-- Element-wise description of `set_last_modified`. -/
theorem set_last_modified_at {lookup : Str → Option Str} :
    ∀ {docs docs' : List Document} {i : Nat} {doc : Document},
    set_last_modified lookup docs = some docs' → docs[i]? = some doc →
    ∃ d', annotateDoc lookup doc = some d' ∧ docs'[i]? = some d' := by
  intro docs
  induction docs with
  | nil =>
    intro docs' i doc h hget
    simp at hget
  | cons d rest ih =>
    intro docs' i doc h hget
    rw [set_last_modified] at h
    match had : annotateDoc lookup d, hrest : set_last_modified lookup rest with
    | some d1, some rest' =>
      rw [had, hrest] at h
      obtain rfl : d1 :: rest' = docs' := Option.some.inj h
      match i, hget with
      | 0, hget =>
        rw [List.getElem?_cons_zero] at hget
        obtain rfl : d = doc := Option.some.inj hget
        exact ⟨d1, had, List.getElem?_cons_zero⟩
      | Nat.succ k, hget =>
        rw [List.getElem?_cons_succ] at hget
        obtain ⟨d', h1, h2⟩ := ih hrest hget
        exact ⟨d', h1, by simpa using h2⟩
    | some d1, none =>
      rw [had, hrest] at h
      cases h
    | none, hr =>
      rw [had] at h
      cases h

/-! ## Helper lemmas: the data loader -/

/-- A data-directory entry that makes the loader abort: not skipped by the
underscore filter, and its name does not split into exactly two parts. -/
def badDataName (nm : Str) : Prop :=
  startsWithCh '_' nm = false ∧ (splitChar '.' nm).length ≠ 2

instance (nm : Str) : Decidable (badDataName nm) :=
  inferInstanceAs (Decidable (_ ∧ _))

theorem bad_exists_cons_iff {nm c : Str} {rest : List (Str × Str)}
    (hgood : ¬ badDataName nm) :
    (∃ e ∈ ((nm, c) :: rest : List (Str × Str)), badDataName e.1) ↔
      ∃ e ∈ rest, badDataName e.1 := by
  constructor
  · rintro ⟨e', he', hbad⟩
    rcases List.mem_cons.mp he' with heq | he''
    · rw [heq] at hbad
      exact absurd hbad hgood
    · exact ⟨e', he'', hbad⟩
  · rintro ⟨e', he', hbad⟩
    exact ⟨e', List.mem_cons_of_mem _ he', hbad⟩

theorem load_data_go_none_iff (csvParse : Str → List Row) :
    ∀ (files : List (Str × Str)) (acc : List (Str × List Row)),
    (load_data_go csvParse acc files = none ↔ ∃ e ∈ files, badDataName e.1) := by
  intro files
  induction files with
  | nil =>
    intro acc
    simp [load_data_go]
  | cons e rest ih =>
    intro acc
    obtain ⟨nm, c⟩ := e
    by_cases hu : startsWithCh '_' nm
    · rw [load_data_go, if_pos hu, ih]
      refine (bad_exists_cons_iff ?_).symm
      rintro ⟨h1, -⟩
      rw [hu] at h1
      cases h1
    · have hu' : startsWithCh '_' nm = false := Bool.eq_false_iff.mpr hu
      rcases hsp : splitChar '.' nm with _ | ⟨a, _ | ⟨b, _ | ⟨x, t⟩⟩⟩
      · exact absurd hsp (splitChar_ne_nil '.' nm)
      · rw [load_data_go, if_neg hu, hsp]
        exact iff_of_true rfl ⟨(nm, c), List.mem_cons_self _ _, hu', by rw [hsp]; simp⟩
      · have hgood : ¬ badDataName nm := by
          rintro ⟨-, h2⟩
          rw [hsp] at h2
          exact h2 rfl
        have hstep : load_data_go csvParse acc ((nm, c) :: rest) =
            (if b = cs "csv" then load_data_go csvParse (setKey acc a (csvParse c)) rest
             else load_data_go csvParse acc rest) := by
          rw [load_data_go, if_neg hu, hsp]
        rw [hstep]
        by_cases hcsv : b = cs "csv"
        · rw [if_pos hcsv, ih]
          exact (bad_exists_cons_iff hgood).symm
        · rw [if_neg hcsv, ih]
          exact (bad_exists_cons_iff hgood).symm
      · rw [load_data_go, if_neg hu, hsp]
        exact iff_of_true rfl ⟨(nm, c), List.mem_cons_self _ _, hu', by rw [hsp]; simp⟩

/-! ## Helper lemmas: the persister -/

theorem fsLookup_setKey (fs : FS) (k v p : Str) :
    fsLookup (setKey fs k v) p = if k = p then some v else fsLookup fs p := by
  induction fs with
  | nil => simp [setKey, fsLookup]
  | cons e rest ih =>
    obtain ⟨k', v'⟩ := e
    by_cases hk : k' = k
    · subst hk
      by_cases hp : k' = p <;> simp [setKey, fsLookup, hp]
    · by_cases hp : k' = p
      · subst hp
        have hkp : k ≠ k' := fun h => hk h.symm
        simp [setKey, fsLookup, hk, hkp]
      · simp [setKey, fsLookup, hk, hp, ih]

theorem fsLookup_writeAll (es : List (Str × Str)) (fs : FS) (p : Str) :
    fsLookup (writeAll fs es) p =
      match lastMatch es p with
      | some w => some w
      | none => fsLookup fs p := by
  induction es generalizing fs with
  | nil => simp [writeAll, lastMatch]
  | cons e rest ih =>
    obtain ⟨k, v⟩ := e
    rw [writeAll, ih, lastMatch]
    match hrest : lastMatch rest p with
    | some w => rfl
    | none =>
      simp only
      rw [fsLookup_setKey]
      by_cases hk : k = p <;> simp [hk]

theorem lastMatch_mem {es : List (Str × Str)} {p w : Str}
    (h : lastMatch es p = some w) : ∃ e ∈ es, e.1 = p ∧ e.2 = w := by
  induction es with
  | nil => cases h
  | cons e rest ih =>
    obtain ⟨k, v⟩ := e
    rw [lastMatch] at h
    match hrest : lastMatch rest p with
    | some w' =>
      rw [hrest] at h
      obtain rfl : w' = w := Option.some.inj h
      obtain ⟨e', he', h1, h2⟩ := ih hrest
      exact ⟨e', List.mem_cons_of_mem _ he', h1, h2⟩
    | none =>
      rw [hrest] at h
      simp only at h
      by_cases hk : k = p
      · rw [if_pos hk] at h
        exact ⟨(k, v), List.mem_cons_self _ _, hk, Option.some.inj h⟩
      · rw [if_neg hk] at h
        cases h

theorem fsLookup_filter_pred {q : Str × Str → Bool} {fs : FS} {p v : Str}
    (h : fsLookup (fs.filter q) p = some v) : q (p, v) = true := by
  induction fs with
  | nil => cases h
  | cons e rest ih =>
    obtain ⟨k, v'⟩ := e
    rw [List.filter_cons] at h
    by_cases hq : q (k, v') = true
    · rw [if_pos hq, fsLookup] at h
      by_cases hk : k = p
      · subst hk
        obtain rfl : v' = v := Option.some.inj (by rw [if_pos rfl] at h; exact h)
        exact hq
      · rw [if_neg hk] at h
        exact ih h
    · rw [if_neg hq] at h
      exact ih h

/-- After `rmtree`, nothing under the build directory is readable. -/
theorem fsLookup_rmtreeBuild_none {fs : FS} {p : Str}
    (hp : (cs "./build/").isPrefixOf p = true) :
    fsLookup (rmtreeBuild fs) p = none := by
  cases hlook : fsLookup (rmtreeBuild fs) p with
  | none => rfl
  | some v =>
    have hq := fsLookup_filter_pred (q := fun e => !(cs "./build/").isPrefixOf e.1) hlook
    rw [Bool.not_eq_eq_eq_not] at hq
    simp only [hp] at hq
    cases hq

/-! ## Helper lemmas: pipeline glue -/

/-- Element-wise description of render followed by prepare. -/
theorem pipeline_at (E : RenderEnv) (data : List (Str × List Row))
    (docs : List Document) (i : Nat) (doc : Document)
    (hget : docs[i]? = some doc) :
    ∃ d', (prepare (render E ⟨data, docs⟩).docs)[i]? = some (prepareDoc d') ∧
      d'.file_name = renderName doc.file_name ∧ d'.dir_name = doc.dir_name := by
  have hlen : i < docs.length := (List.getElem?_eq_some.mp hget).1
  obtain ⟨d', h1, h2, h3, h4⟩ := renderUpTo_at E data docs hget hlen
  refine ⟨d', ?_, h2, h3⟩
  have hrd : (render E ⟨data, docs⟩).docs = renderUpTo E data docs docs.length := rfl
  rw [prepare, hrd, List.getElem?_map, h1]
  rfl

/-- The `.md` branch, when taken, sets index `i` to a document whose name is
the `.md`-to-`.html` rewrite. -/
theorem mdBranch_set (E : RenderEnv) (data : List (Str × List Row))
    (docs : List Document) (i : Nat) (doc : Document)
    (hmd : endsWith (cs ".md") doc.file_name = true) :
    ∃ dres, mdBranch E data docs i doc = docs.set i dres ∧
      dres.file_name = replaceMd doc.file_name := by
  refine ⟨Document.mk doc.dir_name (replaceMd doc.file_name)
      (Post.mk doc.info.metadata
        (E.page ⟨data, docs.set i (Document.mk doc.dir_name (replaceMd doc.file_name)
            (Post.mk doc.info.metadata (E.md2html doc.info.content)))⟩
          (Document.mk doc.dir_name (replaceMd doc.file_name)
            (Post.mk doc.info.metadata (E.md2html doc.info.content))))), ?_, rfl⟩
  rw [mdBranch, if_pos hmd]

/-- The content of the build tree written by `persist` does not depend on
the pre-existing world. -/
theorem fsLookup_persist_indep (fs0 fs1 : FS) (static : List (Str × Str))
    (docs : List Document) {p : Str} (hp : (cs "./build/").isPrefixOf p = true) :
    fsLookup (persist fs0 static docs) p = fsLookup (persist fs1 static docs) p := by
  simp only [persist, fsLookup_writeAll, fsLookup_rmtreeBuild_none hp]

/-! ## The claims -/

/-- Claim C2: for every document whose file name ends in neither `.md` nor
`.jinja2`, the render stage leaves both its content and its file name (pre
pretty-URL resolution) exactly equal to the input: the whole document is
unchanged. -/
theorem claimC2_passthrough (E : RenderEnv) (data : List (Str × List Row))
    (docs : List Document) (i : Nat) (doc : Document)
    (hget : docs[i]? = some doc)
    (hmd : endsWith (cs ".md") doc.file_name = false)
    (hjj : endsWith (cs ".jinja2") doc.file_name = false) :
    ((render E ⟨data, docs⟩).docs)[i]? = some doc :=
  renderUpTo_noop_at E data docs hget hmd hjj docs.length

/-- Witness for C2 at a concrete css passthrough file. -/
theorem claimC2_witness :
    ((render Ezero ⟨[], [⟨cs "./content", cs "style.css", ⟨[], cs "c"⟩⟩]⟩).docs)[0]?
      = some ⟨cs "./content", cs "style.css", ⟨[], cs "c"⟩⟩ :=
  claimC2_passthrough Ezero [] [⟨cs "./content", cs "style.css", ⟨[], cs "c"⟩⟩] 0
    ⟨cs "./content", cs "style.css", ⟨[], cs "c"⟩⟩ rfl (by decide) (by decide)

/-- Claim C3 (counterexample): at the moment the second document's render
call begins, the first (already rendered) document in `context.docs` no
longer holds its original un-rendered content, contradicting the claim that
the context reflects the original content of all documents during every
render call. -/
theorem claimC3_counterexample :
    (renderUpTo Ezero [] [⟨cs "./content", cs "a.md", ⟨[], cs "raw"⟩⟩,
        ⟨cs "./content", cs "b.txt", ⟨[], cs "t"⟩⟩] 1)[0]?
      ≠ some ⟨cs "./content", cs "a.md", ⟨[], cs "raw"⟩⟩ := by decide

/-- Claim C3 (amended): during the render call for document `i` (whose
context list is the state after the first `i` loop iterations), every
document at a position `j ≥ i` — i.e. every not-yet-rendered sibling —
still holds its original un-rendered state; already-processed documents hold
their rendered state instead. -/
theorem claimC3_context_raw_amended (E : RenderEnv) (data : List (Str × List Row))
    (docs : List Document) (i j : Nat) (hij : i ≤ j) :
    (renderUpTo E data docs i)[j]? = docs[j]? :=
  renderUpTo_getElem_ge E data docs hij

/-- Witness for amended C3: the second document is still raw when its own
render call begins. -/
theorem claimC3_witness :
    (renderUpTo Ezero [] [⟨cs "./content", cs "a.md", ⟨[], cs "raw"⟩⟩,
        ⟨cs "./content", cs "b.txt", ⟨[], cs "t"⟩⟩] 1)[1]?
      = [⟨cs "./content", cs "a.md", ⟨[], cs "raw"⟩⟩,
         (⟨cs "./content", cs "b.txt", ⟨[], cs "t"⟩⟩ : Document)][1]? :=
  claimC3_context_raw_amended Ezero [] _ 1 1 (Nat.le_refl 1)

/-- Claim C5 (counterexample): `prepare` rewrites every occurrence of
`./content`, not only the leading prefix: a source directory
`./content/a./content` becomes `./build/a./build`, not the
`./build/a./content` the claim requires. -/
theorem claimC5_counterexample :
    (prepare [⟨cs "./content/a./content", cs "f.txt", ⟨[], cs "c"⟩⟩]).map Document.dir_name
      = [cs "./build/a./build"]
    ∧ cs "./build/a./build" ≠ cs "./build/a./content" := by decide

/-- Claim C5 (amended): the directory-rewrite step of `prepare` substitutes
every occurrence of `./content` with `./build`; in particular, when
`./content` occurs only as the leading prefix, exactly the prefix is
rewritten and the rest of the directory string is unchanged. -/
theorem claimC5_dir_rewrite_amended (doc : Document) (rest : Str)
    (hdir : doc.dir_name = cs "./content" ++ rest)
    (hno : containsSub (cs "./content") rest = false) :
    (prepareDirStep doc).dir_name = cs "./build" ++ rest := by
  rw [prepareDirStep]
  simp only
  rw [hdir]
  have hfront : replaceContentBuild (cs "./content" ++ rest)
      = cs "./build" ++ replaceContentBuild rest := rfl
  rw [hfront, replaceContentBuild_id hno]

/-- Witness for amended C5 at a concrete subdirectory. -/
theorem claimC5_witness :
    (prepareDirStep ⟨cs "./content" ++ cs "/sub", cs "f.txt", ⟨[], cs "c"⟩⟩).dir_name
      = cs "./build" ++ cs "/sub" :=
  claimC5_dir_rewrite_amended ⟨cs "./content" ++ cs "/sub", cs "f.txt", ⟨[], cs "c"⟩⟩
    (cs "/sub") rfl (by decide)

/-- Claim C10: whenever at least one document resolves to path `p`, the
persisted value at `p` is the content of the last such document in
traversal order — regardless of the pre-existing world and of any static
asset copied to `p`: static assets are copied first, documents are written
afterwards with truncate-overwrite, and no duplicate-path error exists. -/
theorem claimC10_silent_overwrite (fs0 : FS) (static : List (Str × Str))
    (docs : List Document) (p w : Str)
    (h : lastMatch (docs.map fun d => (docPath d, d.info.content)) p = some w) :
    fsLookup (persist fs0 static docs) p = some w := by
  simp only [persist]
  rw [fsLookup_writeAll, h]

/-- Witness for C10: two documents and one static asset collide on the same
path; the second document's bytes win silently. -/
theorem claimC10_witness :
    fsLookup (persist [(cs "./build/junk", cs "j")] [(cs "x", cs "statbytes")]
        [docClash1, docClash2]) (docPath docClash2)
      = some (cs "second") :=
  claimC10_silent_overwrite [(cs "./build/junk", cs "j")] [(cs "x", cs "statbytes")]
    [docClash1, docClash2] (docPath docClash2) (cs "second") (by decide)

/-- Claim C1 (counterexample): the render stage renames with
`replace('.md', '.html')`, which rewrites every occurrence of `.md`.  For
the original file name `x.md.md` (so `X = x.md ≠ index`) the final output
path is `./build/x.html/index.html`, not the `./build/x.md/index.html`
required by the claim. -/
theorem claimC1_counterexample :
    (prepare (render Ezero ⟨[], [⟨cs "./content", cs "x.md.md", ⟨[], cs "b"⟩⟩]⟩).docs).map
        (fun d => pathJoin d.dir_name d.file_name)
      = [pathJoin (pathJoin (replaceContentBuild (cs "./content")) (cs "x.html")) (cs "index.html")]
    ∧ cs "x.md" ++ cs ".md" = cs "x.md.md"
    ∧ cs "x.md" ≠ cs "index"
    ∧ pathJoin (pathJoin (replaceContentBuild (cs "./content")) (cs "x.html")) (cs "index.html")
      ≠ pathJoin (pathJoin (replaceContentBuild (cs "./content")) (cs "x.md")) (cs "index.html") := by
  decide

/-- Claim C1 (amended): for a document originally named `X.md` where `.md`
does not occur inside `X` and `X ≠ index`, the final output location after
render and prepare is directory `<resolved-dir>/X` with file `index.html`;
for a document originally named `index.md` it is `<resolved-dir>` with file
`index.html` (so the final paths are `<resolved-dir>/X/index.html` and
`<resolved-dir>/index.html` respectively). -/
theorem claimC1_pretty_url_amended (E : RenderEnv) (data : List (Str × List Row))
    (docs : List Document) (i : Nat) (doc : Document) (X : Str)
    (hget : docs[i]? = some doc) :
    (doc.file_name = X ++ cs ".md" → containsSub (cs ".md") X = false →
      X ≠ cs "index" →
      ∃ d', (prepare (render E ⟨data, docs⟩).docs)[i]? = some d' ∧
        d'.dir_name = pathJoin (replaceContentBuild doc.dir_name) X ∧
        d'.file_name = cs "index.html")
    ∧ (doc.file_name = cs "index.md" →
      ∃ d', (prepare (render E ⟨data, docs⟩).docs)[i]? = some d' ∧
        d'.dir_name = replaceContentBuild doc.dir_name ∧
        d'.file_name = cs "index.html") := by
  constructor
  · intro hname hnc hX
    obtain ⟨d', h1, h2, h3⟩ := pipeline_at E data docs i doc hget
    have hn' : d'.file_name = X ++ cs ".html" := by
      rw [h2, hname, renderName_md hnc]
    refine ⟨prepareDoc d', h1, ?_, ?_⟩
    · rw [prepareDoc_pretty hn' hX]
      simp [h3]
    · rw [prepareDoc_pretty hn' hX]
  · intro hname
    obtain ⟨d', h1, h2, h3⟩ := pipeline_at E data docs i doc hget
    have hn' : d'.file_name = cs "index.html" := by
      rw [h2, hname]
      decide
    refine ⟨prepareDoc d', h1, ?_, ?_⟩
    · rw [prepareDoc_skip (Or.inr hn')]
      simp [prepareDirStep, h3]
    · rw [prepareDoc_skip (Or.inr hn')]
      simp [prepareDirStep, hn']

/-- Witness for amended C1 on a one-document site named `a.md`. -/
theorem claimC1_witness :
    ∃ d', (prepare (render Ezero ⟨[], [docA]⟩).docs)[0]? = some d' ∧
      d'.dir_name = pathJoin (replaceContentBuild (cs "./content")) (cs "a") ∧
      d'.file_name = cs "index.html" :=
  (claimC1_pretty_url_amended Ezero [] [docA] 0 docA (cs "a") rfl).1
    (by decide) (by decide) (by decide)

/-- Claim C4 (counterexample): a qualifying data file name with more than
one dot, such as `a.b.csv`, contains a `.` yet data loading still fails
fatally — refuting "fails exactly when the name contains no `.`" (and no
dataset named by the text before the first dot is produced). -/
theorem claimC4_counterexample :
    load_data (fun _ => []) [(cs "a.b.csv", cs "x")] = none
    ∧ containsSub (cs ".") (cs "a.b.csv") = true := by
  refine ⟨rfl, by decide⟩

/-- Claim C4 (amended): data loading fails exactly when some entry whose
name does not start with `_` fails to split into exactly two dot-separated
parts (no dot, or more than one dot).  For a qualifying name `base.ext`
with exactly one dot, the dataset named `base` (the text before the dot) is
produced from the csv row parser exactly when `ext = csv`; other extensions
and `_`-prefixed names contribute nothing. -/
theorem claimC4_data_loading_amended (csvParse : Str → List Row) :
    (∀ files : List (Str × Str),
      (load_data csvParse files = none ↔ ∃ e ∈ files, badDataName e.1))
    ∧ (∀ base ext content : Str, splitChar '.' (base ++ '.' :: ext) = [base, ext] →
        startsWithCh '_' (base ++ '.' :: ext) = false →
        load_data csvParse [(base ++ '.' :: ext, content)]
          = some (if ext = cs "csv" then [(base, csvParse content)] else []))
    ∧ (∀ nm content : Str, startsWithCh '_' nm = true →
        load_data csvParse [(nm, content)] = some []) := by
  refine ⟨fun files => load_data_go_none_iff csvParse files [], ?_, ?_⟩
  · intro base ext content hsp hu
    have hu' : ¬ (startsWithCh '_' (base ++ '.' :: ext) = true) := fun h => by
      rw [hu] at h
      cases h
    have hstep : load_data csvParse [(base ++ '.' :: ext, content)] =
        (if ext = cs "csv" then load_data_go csvParse (setKey [] base (csvParse content)) []
         else load_data_go csvParse [] []) := by
      conv_lhs => rw [load_data, load_data_go]
      rw [if_neg hu', hsp]
    rw [hstep]
    by_cases hcsv : ext = cs "csv" <;> simp [hcsv, load_data_go, setKey]
  · intro nm content hu
    rw [load_data, load_data_go, if_pos hu]
    rfl

/-- Witness for amended C4: `widgets.csv` loads into dataset `widgets`; the
failure condition instantiates to the empty directory. -/
theorem claimC4_witness :
    load_data (fun c => [[(cs "row", c)]]) [(cs "widgets" ++ '.' :: cs "csv", cs "w")]
      = some (if cs "csv" = cs "csv"
          then [(cs "widgets", [[(cs "row", cs "w")]])] else []) :=
  (claimC4_data_loading_amended (fun c => [[(cs "row", c)]])).2.1
    (cs "widgets") (cs "csv") (cs "w") (by decide) (by decide)

/-- Claim C6: when the history lookup for a document's path returns
`Tue Mar 17 22:30:27 2020 -0500`, the annotator sets `last_modified_date`
to the parsed timestamp and `last_modified` to `March 17, 2020 at 10:30 PM`;
when the lookup returns nothing, the document is left entirely unmodified
(in particular the annotator adds neither key). -/
theorem claimC6_last_modified (lookup : Str → Option Str)
    (docs docs' : List Document) (i : Nat) (doc : Document)
    (hrun : set_last_modified lookup docs = some docs')
    (hget : docs[i]? = some doc) :
    (lookup (pathJoin doc.dir_name doc.file_name)
        = some (cs "Tue Mar 17 22:30:27 2020 -0500") →
      docs'[i]? = some ⟨doc.dir_name, doc.file_name,
        ⟨setKey (setKey doc.info.metadata (cs "last_modified_date")
            (MetaValue.date ⟨2020, 3, 17, 22, 30, 27, -300⟩))
          (cs "last_modified") (MetaValue.str (cs "March 17, 2020 at 10:30 PM")),
         doc.info.content⟩⟩)
    ∧ (lookup (pathJoin doc.dir_name doc.file_name) = none →
      docs'[i]? = some doc) := by
  obtain ⟨d', h1, h2⟩ := set_last_modified_at hrun hget
  constructor
  · intro hlook
    have hsp : strptimeGit (cs "Tue Mar 17 22:30:27 2020 -0500")
        = some ⟨2020, 3, 17, 22, 30, 27, -300⟩ := rfl
    simp only [annotateDoc, hlook, hsp] at h1
    obtain rfl := Option.some.inj h1
    exact h2
  · intro hlook
    simp only [annotateDoc, hlook] at h1
    obtain rfl := Option.some.inj h1
    exact h2

/-- Witness for C6 on a concrete tracked document. -/
theorem claimC6_witness : ([docAnn] : List Document)[0]? = some docAnn :=
  (claimC6_last_modified lookupTue [docA] [docAnn] 0 docA rfl rfl).1 rfl

/-- Claim C7: the two independently checked suffix branches of the render
loop body (the `.jinja2` test running on the possibly already-renamed name)
produce exactly the same document-list state as a mutually exclusive switch
dispatching on the original name; in particular, whenever the `.md` branch
fires, the renamed file cannot satisfy the `.jinja2` test, so at most one
branch ever fires. -/
theorem claimC7_exclusive_dispatch :
    (∀ (E : RenderEnv) (data : List (Str × List Row)) (docs : List Document) (i : Nat),
      renderStepAt E data docs i = renderStepAtSwitch E data docs i)
    ∧ (∀ name : Str, endsWith (cs ".md") name = true →
        endsWith (cs ".jinja2") (replaceMd name) = false) := by
  have hkey : ∀ name : Str, endsWith (cs ".md") name = true →
      endsWith (cs ".jinja2") (replaceMd name) = false := by
    intro name h
    obtain ⟨Y, hY⟩ := replaceMd_endsWith_html h
    rw [hY]
    exact not_endsWith_jinja_of_html Y
  refine ⟨?_, hkey⟩
  intro E data docs i
  rw [renderStepAt, renderStepAtSwitch]
  match hget : docs[i]? with
  | none => rfl
  | some doc =>
    simp only
    have hlen : i < docs.length := (List.getElem?_eq_some.mp hget).1
    by_cases hmd : endsWith (cs ".md") doc.file_name
    · rw [if_pos hmd]
      obtain ⟨dres, hbr, hname⟩ := mdBranch_set E data docs i doc hmd
      rw [hbr]
      have hset : (docs.set i dres)[i]? = some dres :=
        List.getElem?_set_self (by simpa using hlen)
      simp only [hset]
      rw [jinjaBranch, if_neg]
      rw [hname]
      intro hc
      rw [hkey doc.file_name hmd] at hc
      cases hc
    · have hmd' : endsWith (cs ".md") doc.file_name = false := Bool.eq_false_iff.mpr hmd
      simp only [mdBranch, hmd', Bool.false_eq_true, if_false, hget]

/-- Witness for C7 at a concrete markdown document. -/
theorem claimC7_witness :
    renderStepAt Ezero [] [docA] 0 = renderStepAtSwitch Ezero [] [docA] 0
    ∧ endsWith (cs ".jinja2") (replaceMd (cs "a.md")) = false :=
  ⟨claimC7_exclusive_dispatch.1 Ezero [] [docA] 0,
   claimC7_exclusive_dispatch.2 (cs "a.md") (by decide)⟩

/-- Claim C8: the build is a deterministic function of its inputs (content
tree, datasets, collaborators, static assets and history lookup): two runs
— in particular a second run on top of the first run's output world —
produce byte-identical build trees. -/
theorem claimC8_deterministic (E : RenderEnv) (lookup : Str → Option Str)
    (csvParse : Str → List Row) (docs0 : List Document)
    (dataFiles : List (Str × Str)) (static : List (Str × Str))
    (fs0 fs1 out0 out1 : FS) (p : Str)
    (h0 : build E lookup csvParse docs0 dataFiles static fs0 = some out0)
    (h1 : build E lookup csvParse docs0 dataFiles static fs1 = some out1)
    (hp : (cs "./build/").isPrefixOf p = true) :
    fsLookup out0 p = fsLookup out1 p := by
  rw [build] at h0 h1
  match hld : load_data csvParse dataFiles with
  | none =>
    rw [hld] at h0
    cases h0
  | some data =>
    rw [hld] at h0 h1
    match hsl : set_last_modified lookup docs0 with
    | none =>
      rw [hsl] at h0
      cases h0
    | some docs1 =>
      rw [hsl] at h0 h1
      simp only at h0 h1
      obtain rfl := Option.some.inj h0
      obtain rfl := Option.some.inj h1
      exact fsLookup_persist_indep fs0 fs1 static
        (prepare (render E ⟨data, docs1⟩).docs) hp

/-- Witness for C8: a one-document build, run from an empty world and from
a world holding a stale build file, agrees on the output path. -/
theorem claimC8_witness :
    fsLookup (persist [] [] docsStage3) (cs "./build/a/index.html")
      = fsLookup (persist [(cs "./build/stale", cs "s")] [] docsStage3)
          (cs "./build/a/index.html") :=
  claimC8_deterministic Ezero (fun _ => none) (fun _ => []) [docA] [] []
    [] [(cs "./build/stale", cs "s")]
    (persist [] [] docsStage3) (persist [(cs "./build/stale", cs "s")] [] docsStage3)
    (cs "./build/a/index.html") rfl rfl (by decide)

/-- Claim C9: `persist` first removes the whole build directory and
recreates it before copying static assets and writing documents; hence
every file readable under `./build/` after a run is a static-asset copy or
a document written by that run — no stale file from a previous run
survives. -/
theorem claimC9_reset (fs0 : FS) (static : List (Str × Str))
    (docs : List Document) (p v : Str)
    (hlook : fsLookup (persist fs0 static docs) p = some v)
    (hp : (cs "./build/").isPrefixOf p = true) :
    (∃ e ∈ static, p = staticTarget e.1) ∨ ∃ d ∈ docs, p = docPath d := by
  simp only [persist] at hlook
  rw [fsLookup_writeAll] at hlook
  match hdocs : lastMatch (docs.map fun d => (docPath d, d.info.content)) p with
  | some w =>
    obtain ⟨e, he, h1, h2⟩ := lastMatch_mem hdocs
    obtain ⟨d, hd, heq⟩ := List.mem_map.mp he
    right
    refine ⟨d, hd, ?_⟩
    rw [← h1, ← heq]
  | none =>
    rw [hdocs] at hlook
    simp only at hlook
    rw [fsLookup_writeAll] at hlook
    match hstatic : lastMatch (static.map fun e => (staticTarget e.1, e.2)) p with
    | some w =>
      obtain ⟨e, he, h1, h2⟩ := lastMatch_mem hstatic
      obtain ⟨s, hs, heq⟩ := List.mem_map.mp he
      left
      refine ⟨s, hs, ?_⟩
      rw [← h1, ← heq]
    | none =>
      rw [hstatic] at hlook
      simp only at hlook
      rw [fsLookup_rmtreeBuild_none hp] at hlook
      cases hlook

/-- Witness for C9: in a run over one static asset and one document,
starting from a world with a stale build file, the readable static-copy
path is accounted for by the static assets of this run. -/
theorem claimC9_witness :
    (∃ e ∈ [(cs "css", cs "c")], staticTarget (cs "css") = staticTarget e.1)
    ∨ ∃ d ∈ docsStage3, staticTarget (cs "css") = docPath d :=
  claimC9_reset [(cs "./build/old", cs "o")] [(cs "css", cs "c")] docsStage3
    (staticTarget (cs "css")) (cs "c") (by decide) (by decide)
